import Mathlib

/-!
Verification of the chinese-book-analyser core (`book.py`, `utils.py`)
against its natural-language specification.

The Python source is shallowly embedded: Python `str` becomes `List Char`,
Python `int` becomes `Int`/`Nat`, the mutable `Book` object becomes an
explicit state record, and fallible construction returns `Except`.
Python's stable `list.sort` is modelled with `List.insertionSort`
(stable, as Python guarantees its sort to be). Floating-point percentage
accumulation and `round` are modelled over exact numbers with Python's
round-half-to-even rule.
-/

/-- Python's `round` to nearest integer with ties going to the even
integer (banker's rounding), over exact rationals. -/
def pyRound (q : ℚ) : ℤ :=
  let f : ℤ := ⌊q⌋
  let frac : ℚ := q - f
  if frac < 1/2 then f
  else if 1/2 < frac then f + 1
  else if f % 2 = 0 then f else f + 1

/-- Python's `round(x, 2)` (two decimal places), over exact rationals. -/
def pyRound2 (q : ℚ) : ℚ := (pyRound (q * 100) : ℚ) / 100

/-- The character class of `re.fullmatch('[一-鿿]', c)` used for
hanzi discovery in `Book.find_and_process_unique_hanzi`. -/
def isHanziCP (c : Char) : Bool :=
  0x4e00 ≤ c.toNat && c.toNat ≤ 0x9fff

/-- Modelled from the spec: `zhon.hanzi.characters`, the third-party CJK
ideograph class used by the segmenter (the `zhon` library is not under
`src/`). Ideographic number zero plus the CJK Unified/Compatibility
ideograph blocks. -/
def zhonCharacters (c : Char) : Bool :=
  let n := c.toNat
  n == 0x3007
  || (0x4e00 ≤ n && n ≤ 0x9fff)
  || (0x3400 ≤ n && n ≤ 0x4dbf)
  || (0xf900 ≤ n && n ≤ 0xfaff)
  || (0x20000 ≤ n && n ≤ 0x2a6df)
  || (0x2a700 ≤ n && n ≤ 0x2b73f)
  || (0x2b740 ≤ n && n ≤ 0x2b81f)
  || (0x2f800 ≤ n && n ≤ 0x2fa1f)

/-- Modelled from the spec: `zhon.hanzi.radicals` (Kangxi Radicals and
CJK Radicals Supplement blocks). -/
def zhonRadicals (c : Char) : Bool :=
  let n := c.toNat
  (0x2f00 ≤ n && n ≤ 0x2fd5) || (0x2e80 ≤ n && n ≤ 0x2ef3)

/-- Modelled from the spec: `zhon.hanzi.non_stops`, Chinese punctuation
that does not end a sentence (fullwidth ASCII variants, CJK symbols and
brackets, dashes, quotation marks, general punctuation, small form
variants, middle dot). -/
def zhonNonStops (c : Char) : Bool :=
  let n := c.toNat
  (0xff02 ≤ n && n ≤ 0xff0d) || n == 0xff0f
  || (0xff1a ≤ n && n ≤ 0xff1e) || n == 0xff20
  || (0xff3b ≤ n && n ≤ 0xff3f) || n == 0xff40
  || (0xff5b ≤ n && n ≤ 0xff60) || (0xff62 ≤ n && n ≤ 0xff64)
  || (0x3000 ≤ n && n ≤ 0x3001) || n == 0x3003
  || (0x3008 ≤ n && n ≤ 0x3011) || (0x3014 ≤ n && n ≤ 0x301f)
  || n == 0x3030 || (0x303e ≤ n && n ≤ 0x303f)
  || (0x2013 ≤ n && n ≤ 0x2014) || (0x2018 ≤ n && n ≤ 0x201f)
  || (0x2026 ≤ n && n ≤ 0x2027) || n == 0xfe4f
  || n == 0xfe51 || n == 0xfe54 || n == 0xb7

/-- Modelled from the spec: `zhon.hanzi.stops` — fullwidth exclamation
and question marks, halfwidth and fullwidth ideographic full stops. -/
def zhonStops (c : Char) : Bool :=
  let n := c.toNat
  n == 0xff01 || n == 0xff1f || n == 0xff61 || n == 0x3002

/-- Python's regex `\w` restricted to the character repertoire exercised
here: ASCII alphanumerics, underscore, and the CJK ideograph classes
(other Unicode letters are outside every text this development
evaluates). -/
def isWordChar (c : Char) : Bool :=
  let n := c.toNat
  (0x41 ≤ n && n ≤ 0x5a) || (0x61 ≤ n && n ≤ 0x7a)
  || (0x30 ≤ n && n ≤ 0x39) || n == 0x5f
  || zhonCharacters c

/-- The `latin_non_stops` raw string of
`find_and_process_unique_hanzi`: ASCII period, hyphen, hash,
parentheses, comma, semicolon, colon, percent, dollar, ampersand,
asterisk, plus, slash, angle brackets, equals, at sign, square
brackets, caret, underscore, backquote, curly braces, vertical bar,
tilde, backslash and space. -/
def isLatinNonStop (c : Char) : Bool :=
  let n := c.toNat
  n == 0x2e || n == 0x2d || n == 0x23 || n == 0x28 || n == 0x29
  || n == 0x2c || n == 0x3b || n == 0x3a || n == 0x25 || n == 0x24
  || n == 0x26 || n == 0x2a || n == 0x2b || n == 0x2f || n == 0x3c
  || n == 0x3d || n == 0x3e || n == 0x40 || n == 0x5b || n == 0x5d
  || n == 0x5e || n == 0x5f || n == 0x60 || n == 0x7b || n == 0x7c
  || n == 0x7d || n == 0x7e || n == 0x5c || n == 0x20

/-- The class `start_sentence`, namely `zhon.hanzi.characters`
together with regex word characters. -/
def isStartChar (c : Char) : Bool := zhonCharacters c || isWordChar c

/-- The class `mid_sentence`: `start_sentence` plus radicals,
non-stops, the symbols ─．○, and `latin_non_stops`. -/
def isMidChar (c : Char) : Bool :=
  isStartChar c || zhonRadicals c || zhonNonStops c
  || c.toNat == 0x2500 || c.toNat == 0xff0e || c.toNat == 0x25cb
  || isLatinNonStop c

/-- The sentence-terminating class of the segmentation regex:
`zhon.hanzi.stops` plus the ellipsis, the newline and Latin
exclamation/question marks. -/
def isStopChar (c : Char) : Bool :=
  zhonStops c || c.toNat == 0x2026 || c.toNat == 0x0a
  || c.toNat == 0x21 || c.toNat == 0x3f

/-- The trailing closing-quote/bracket class
`」﹂”』’》）］｝〕〗〙〛〉】` of `end_sentence`. -/
def isCloseChar (c : Char) : Bool :=
  let n := c.toNat
  n == 0x300d || n == 0xfe42 || n == 0x201d || n == 0x300f
  || n == 0x2019 || n == 0x300b || n == 0xff09 || n == 0xff3d
  || n == 0xff5d || n == 0x3015 || n == 0x3017 || n == 0x3019
  || n == 0x301b || n == 0x3009 || n == 0x3011

/-- Python `str.strip()` whitespace, restricted to the whitespace
characters exercised here (ASCII whitespace and the ideographic
space). -/
def isPySpace (c : Char) : Bool :=
  let n := c.toNat
  n == 0x20 || n == 0x09 || n == 0x0a || n == 0x0d || n == 0x0b
  || n == 0x0c || n == 0x3000

/-- Python `str.strip()`: remove leading and trailing whitespace. -/
def pyStrip (s : List Char) : List Char :=
  ((s.dropWhile isPySpace).reverse.dropWhile isPySpace).reverse

/-- Inner loop of `utils.index_of_first`: walk the list with a running
index, returning the index of the first element satisfying the
predicate. -/
def indexOfFirstAux {α : Type} (pred : α → Bool) (i : ℤ) : List α → ℤ
  | [] => -1
  | x :: t => if pred x then i else indexOfFirstAux pred (i + 1) t

/-- Model of `utils.index_of_first`: index of the first element
satisfying `pred`, or the sentinel `-1` when none does. -/
def index_of_first {α : Type} (lst : List α) (pred : α → Bool) : ℤ :=
  indexOfFirstAux pred 0 lst

/-- Python list slicing `l[start:stop]` (step 1) with negative-index
normalisation and clamping. -/
def pySlice {α : Type} (l : List α) (start stop : ℤ) : List α :=
  let n : ℤ := l.length
  let i : ℤ := if start < 0 then max 0 (n + start) else min start n
  let j : ℤ := if stop < 0 then max 0 (n + stop) else min stop n
  (l.take j.toNat).drop i.toNat

/-- The `Hanzi` record of `book.py`: one unique character with its
frequency, occurrence positions, average distance (Python `None` before
computation) and example sentences. -/
structure Hanzi where
  hanzi : Char
  frequency : ℕ
  occurrences : List ℕ
  distance : Option ℤ
  example_sentences : List (List Char)
deriving DecidableEq, Repr

/-- The analysis failures of `book.py` (all raised as `ValueError` in
the source, distinguished by message; the spec names them
`NoHanziFound`, `NoSentencesFound`, `NoExampleSentences`). -/
inductive AnalysisError where
  | noHanziFound
  | noSentencesFound
  | noExampleSentences
deriving DecidableEq, Repr

deriving instance DecidableEq for Except

/-- The loop body of `Hanzi.calculate_average_distance`: sum of
`occurrences[i] - occurrences[i-1]` over consecutive pairs. -/
def totalGap : List ℕ → ℤ
  | a :: b :: t => ((b : ℤ) - (a : ℤ)) + totalGap (b :: t)
  | _ => 0

/-- Round-half-to-even of the exact quotient `a / b` for `b > 0`,
computed with integer arithmetic: the value of Python's
`round(a / b)` on the (here always exactly representable) quotient.
Agrees with `pyRound ((a : ℚ) / b)` on positive denominators. -/
def pyRoundQuot (a b : ℤ) : ℤ :=
  let q := a.ediv b
  let r := a.emod b
  if 2 * r < b then q
  else if b < 2 * r then q + 1
  else if q % 2 = 0 then q else q + 1

/-- Model of `Hanzi.calculate_average_distance`: the rounded mean
consecutive gap when `frequency > 1`, `0` when `frequency == 1`, and
unchanged (`None` preserved) otherwise. -/
def calculate_average_distance (hz : Hanzi) : Hanzi :=
  if hz.frequency > 1 then
    let d : ℤ := pyRoundQuot (totalGap hz.occurrences)
      ((hz.occurrences.length : ℤ) - 1)
    { hz with distance := some d }
  else if hz.frequency == 1 then
    { hz with distance := some 0 }
  else hz

/-- Model of `Hanzi.find_example_sentences`: append every sentence
containing the character; raise (`NoExampleSentences`) when none
does. -/
def find_example_sentences (sentences : List (List Char)) (hz : Hanzi) :
    Except AnalysisError Hanzi :=
  let ex := hz.example_sentences ++ sentences.filter (fun s => s.contains hz.hanzi)
  if ex.isEmpty then .error .noExampleSentences
  else .ok { hz with example_sentences := ex }

/-- Model of `random.sample(population, k)`: raises `ValueError` when `k < 0` or
`k > len(population)`; otherwise returns `k` draws without replacement.
The randomness is supplied as `shuffled`, an arbitrary reordering of the
population; the sample is its `k`-prefix. -/
def pyRandomSample {α : Type} (population shuffled : List α) (k : ℤ) :
    Except Unit (List α) :=
  if k < 0 ∨ (population.length : ℤ) < k then .error ()
  else .ok (shuffled.take k.toNat)

/-- Model of `Hanzi.get_random_example_sentences`: a random sample of
`min(how_many, len(example_sentences))` example sentences, with any
`ValueError`/`TypeError` caught and turned into the empty list. -/
def get_random_example_sentences (shuffled : List (List Char))
    (hz : Hanzi) (how_many : ℤ) : List (List Char) :=
  match pyRandomSample hz.example_sentences shuffled
      (min how_many (hz.example_sentences.length : ℤ)) with
  | .ok r => r
  | .error _ => []

/-- One step of the discovery loop of
`Book.find_and_process_unique_hanzi` at a hit: on first sight create a
record with frequency 1, otherwise increment the frequency; in both
cases append the position to `occurrences`. The record list is in
insertion order, like a Python dict. -/
def updateHanzi (acc : List Hanzi) (c : Char) (i : ℕ) : List Hanzi :=
  if acc.any (fun hz => hz.hanzi == c) then
    acc.map (fun hz =>
      if hz.hanzi == c then
        { hz with frequency := hz.frequency + 1,
                  occurrences := hz.occurrences ++ [i] }
      else hz)
  else
    acc ++ [{ hanzi := c, frequency := 1, occurrences := [i],
              distance := none, example_sentences := [] }]

/-- The discovery scan of `Book.find_and_process_unique_hanzi`:
`for index, character in enumerate(text)`, updating the record list at
each character matching `[一-鿿]`. -/
def findHanziFrom (acc : List Hanzi) (i : ℕ) : List Char → List Hanzi
  | [] => acc
  | c :: t =>
      findHanziFrom (if isHanziCP c then updateHanzi acc c i else acc) (i + 1) t

/-- All unique hanzi of a text, with frequencies and occurrence lists. -/
def findUniqueHanzi (text : List Char) : List Hanzi :=
  findHanziFrom [] 0 text

/-- Matcher for the `[mid_sentence]*[stops][closing]*` suffix of the
segmentation regex, with the greedy backtracking of `re`: prefer
consuming a `mid_sentence` character, fall back to treating the current
character as the stop. Returns the matched part and the rest. -/
def matchMidStop : List Char → Option (List Char × List Char)
  | [] => none
  | c :: t =>
    if isMidChar c then
      match matchMidStop t with
      | some (m, r) => some (c :: m, r)
      | none =>
        if isStopChar c then
          some (c :: t.takeWhile isCloseChar, t.dropWhile isCloseChar)
        else none
    else
      if isStopChar c then
        some (c :: t.takeWhile isCloseChar, t.dropWhile isCloseChar)
      else none

/-- Matcher for the part of the sentence regex after its first
`start_sentence` character: greedily extend the `[start_sentence]+`
run, backtracking into `matchMidStop` when the continuation fails. -/
def matchAfterStart : List Char → Option (List Char × List Char)
  | [] => none
  | c :: t =>
    if isStartChar c then
      match matchAfterStart t with
      | some (m, r) => some (c :: m, r)
      | none => matchMidStop (c :: t)
    else matchMidStop (c :: t)

/-- Matcher for one sentence of the segmentation regex
`[start_sentence]+[mid_sentence]*[stops][closing]*` anchored at the
head of the list. -/
def matchSentence : List Char → Option (List Char × List Char)
  | [] => none
  | c :: t =>
    if isStartChar c then
      match matchAfterStart t with
      | some (m, r) => some (c :: m, r)
      | none => none
    else none

/-- Scanner of `re.findall` over the sentence regex: try a match at
each position, keep non-overlapping matches, advance one character on
failure. Fuel-indexed for structural recursion; every step strictly
shrinks the text, so fuel `≥` text length is exact
(`findSentencesFuel_irrel`). -/
def findSentencesFuel : ℕ → List Char → List (List Char)
  | 0, _ => []
  | _ + 1, [] => []
  | fuel + 1, c :: t =>
    match matchSentence (c :: t) with
    | some (m, r) => m :: findSentencesFuel fuel r
    | none => findSentencesFuel fuel t

/-- All non-overlapping sentence-regex matches of a text, in order. -/
def findSentences (l : List Char) : List (List Char) :=
  findSentencesFuel l.length l

/-- Sentence segmentation of `find_and_process_unique_hanzi`:
`re.findall` of the sentence regex over the text, each match stripped
of surrounding whitespace. -/
def segmentText (text : List Char) : List (List Char) :=
  (findSentences text).map pyStrip

/-- The mutable `Book` object of `book.py` as an explicit state
record. The `hanzi_sorted` tuple (sorted list, reverse-frequency
flag, reverse-distance flag) becomes three fields, the flags being
`Option Bool` (`None` before the first sort). The dict `self.hanzi`
is an insertion-ordered record list. The formatted percentile rows of
`statistics` are presentation output and are not modelled; the
`total_hanzi` aggregate that the selector reads is. -/
structure Book where
  title : String
  text : List Char
  sentences : List (List Char)
  hanzi : List Hanzi
  sorted_hanzi : List Hanzi
  frequency_reversed : Option Bool
  distance_reversed : Option Bool
  total_hanzi : ℕ
deriving DecidableEq, Repr

/-- The `distance` attribute as read by `sort_hanzi`'s `getattr` sort
key. In every constructed book `distance` is set, so the default is
never exercised there. -/
def Hanzi.distanceVal (hz : Hanzi) : ℤ := hz.distance.getD 0

/-- Python's stable `list.sort(key=..., reverse=...)` on record lists:
insertion sort, stable exactly as Python guarantees its sort to be. -/
def pySortByKey (key : Hanzi → ℤ) (rev : Bool) (l : List Hanzi) : List Hanzi :=
  List.insertionSort (fun a b => if rev then key b ≤ key a else key a ≤ key b) l

/-- The two-pass sort of `Book.sort_hanzi`: by `distance` (with
`distance_reversed`) first, then stably by `frequency` (with
`frequency_reversed`), so that frequency dominates and distance
breaks frequency ties. -/
def sortHanziList (l : List Hanzi)
    (frequency_reversed distance_reversed : Bool) : List Hanzi :=
  pySortByKey (fun hz => (hz.frequency : ℤ)) frequency_reversed
    (pySortByKey Hanzi.distanceVal distance_reversed l)

/-- Model of `Book.sort_hanzi`: a no-op when the cached flag pair
already matches, otherwise recompute from the `self.hanzi` values and
cache the result with its flag pair. -/
def sort_hanzi (b : Book)
    (frequency_reversed distance_reversed : Bool) : Book :=
  if b.frequency_reversed = some frequency_reversed ∧
      b.distance_reversed = some distance_reversed then b
  else
    { b with
      sorted_hanzi := sortHanziList b.hanzi frequency_reversed distance_reversed,
      frequency_reversed := some frequency_reversed,
      distance_reversed := some distance_reversed }

/-- The finalize loop of `find_and_process_unique_hanzi`: for each
record in order, compute the average distance and the example
sentences; the first record with no example sentence raises, aborting
the book. -/
def processHanzi (sentences : List (List Char)) :
    List Hanzi → Except AnalysisError (List Hanzi)
  | [] => .ok []
  | hz :: t =>
    match find_example_sentences sentences (calculate_average_distance hz) with
    | .error e => .error e
    | .ok hz' =>
      match processHanzi sentences t with
      | .error e => .error e
      | .ok t' => .ok (hz' :: t')

/-- Model of `Book.find_and_process_unique_hanzi`: the discovery scan,
the no-hanzi check, segmentation, the no-sentences check, then the
finalize pass over every record. -/
def find_and_process_unique_hanzi (text : List Char) :
    Except AnalysisError (List Hanzi × List (List Char)) :=
  let hanzi := findUniqueHanzi text
  if hanzi.isEmpty then .error .noHanziFound
  else
    let sentences := segmentText text
    if sentences.isEmpty then .error .noSentencesFound
    else
      match processHanzi sentences hanzi with
      | .ok processed => .ok (processed, sentences)
      | .error e => .error e

/-- Model of `Book.calculate_statistics` restricted to its effect on
analysis state: `total_hanzi` is recomputed as the frequency sum over
the current sorted view, after which `sort_hanzi()` runs with its
default flags. -/
def calculate_statistics (b : Book) : Book :=
  let b' := { b with total_hanzi := (b.sorted_hanzi.map (fun hz => hz.frequency)).sum }
  sort_hanzi b' true true

/-- Model of `Book.__init__` followed by `prepare_for_export`:
discovery, segmentation and finalize, the default sort, then
statistics; any analysis error propagates and no book is produced. -/
def constructBook (title : String) (text : List Char) : Except AnalysisError Book :=
  match find_and_process_unique_hanzi text with
  | .error e => .error e
  | .ok (hanzi, sentences) =>
    let b : Book :=
      { title := title, text := text, sentences := sentences,
        hanzi := hanzi, sorted_hanzi := [],
        frequency_reversed := none, distance_reversed := none,
        total_hanzi := 0 }
    .ok (calculate_statistics (sort_hanzi b true true))

/-- One execution of the `while` accumulation loop of
`export_hanzi_to_learn`, over the part of the ranked list not yet
consumed: returns the final `last_hanzi_index`, or `none` for the
`IndexError` of reading past the end of the ranked list. The
floating-point running percentage is modelled as an exact rational. -/
def lastIndexLoop (total : ℕ) (cp : ℤ) : ℚ → ℕ → List Hanzi → Option ℕ
  | pct, idx, [] => if pyRound2 pct < (cp : ℚ) then none else some idx
  | pct, idx, hz :: t =>
    if pyRound2 pct < (cp : ℚ) then
      lastIndexLoop total cp (pct + (hz.frequency : ℚ) / (total : ℚ) * 100) (idx + 1) t
    else some idx

/-- The `last_hanzi_index` computation of `export_hanzi_to_learn`:
the accumulation loop when `comprehension_percentage != 100`,
otherwise `len(ranked) - 1`. -/
def lastHanziIndex (b : Book) (cp : ℤ) : Option ℤ :=
  if cp ≠ 100 then
    (lastIndexLoop b.total_hanzi cp 0 0 b.sorted_hanzi).map (fun k => (k : ℤ))
  else some ((b.sorted_hanzi.length : ℤ) - 1)

/-- The hanzi-to-learn selection of `Book.export_hanzi_to_learn` (the
CSV write is I/O and not modelled): re-sort, determine
`last_hanzi_index` then `first_hanzi_index`, and take the Python
slice `ranked[first : last + 1]`. `none` is the loop's
`IndexError`. -/
def export_hanzi_to_learn (b : Book)
    (comprehension_percentage frequency_threshold : ℤ)
    (frequency_reversed distance_reversed : Bool) : Option (List Hanzi) :=
  let b' := sort_hanzi b frequency_reversed distance_reversed
  match lastHanziIndex b' comprehension_percentage with
  | none => none
  | some last =>
    let first := index_of_first b'.sorted_hanzi
      (fun hz => (hz.frequency : ℤ) ≤ frequency_threshold)
    some (pySlice b'.sorted_hanzi first (last + 1))

/-- The unique-character keys of a book, in insertion order. -/
def bookKeys (b : Book) : List Char := b.hanzi.map (fun hz => hz.hanzi)

/-- Lookup of `book.hanzi[c].frequency`; the `0` branch stands for a
`KeyError`, which `export_shared_hanzi` never exercises (it looks up
only characters present in every book). -/
def freqOf (b : Book) (c : Char) : ℕ :=
  match b.hanzi.find? (fun hz => hz.hanzi == c) with
  | some hz => hz.frequency
  | none => 0

/-- The `set.intersection` over all books' key sets in
`export_shared_hanzi`. Python iterates the resulting set in an
arbitrary hash order; the model fixes the first book's insertion
order, one particular refinement of that arbitrary order. -/
def sharedHanziKeys : List Book → List Char
  | [] => []
  | b :: rest =>
    (bookKeys b).filter (fun c => rest.all (fun b2 => (bookKeys b2).contains c))

/-- The shared-hanzi computation of `Book.export_shared_hanzi` (the
CSV write is I/O and not modelled): intersect the key sets, sum each
shared character's frequency over all the books, and sort by summed
frequency with the caller's reversal flag. -/
def export_shared_hanzi (books : List Book) (frequency_reversed : Bool) :
    List (Char × ℕ) :=
  let total_frequency := (sharedHanziKeys books).map
    (fun c => (c, (books.map (fun b => freqOf b c)).sum))
  List.insertionSort
    (fun x y => if frequency_reversed then y.2 ≤ x.2 else x.2 ≤ y.2)
    total_frequency

/-- The book produced by a successful construction (a vacuous default
for a failed one); lets closed concrete theorems name the constructed
book. -/
def getBook (e : Except AnalysisError Book) : Book :=
  match e with
  | .ok b => b
  | .error _ =>
    { title := "", text := [], sentences := [], hanzi := [],
      sorted_hanzi := [], frequency_reversed := none,
      distance_reversed := none, total_hanzi := 0 }

/-- The frequency recorded for character `c`, if a record exists. -/
def freqOfChar (l : List Hanzi) (c : Char) : Option ℕ :=
  (l.find? (fun hz => hz.hanzi == c)).map (fun hz => hz.frequency)

/-- The distance recorded for character `c`, if a record exists. -/
def distOfChar (l : List Hanzi) (c : Char) : Option (Option ℤ) :=
  (l.find? (fun hz => hz.hanzi == c)).map (fun hz => hz.distance)

/-- The occurrence list recorded for character `c`, if a record
exists. -/
def occOfChar (l : List Hanzi) (c : Char) : Option (List ℕ) :=
  (l.find? (fun hz => hz.hanzi == c)).map (fun hz => hz.occurrences)

/-- The frequency ordering of adjacent ranked records demanded by the
spec, as directed by `frequency_reversed`. -/
def freqOrd (frequency_reversed : Bool) (a b : Hanzi) : Prop :=
  if frequency_reversed then b.frequency ≤ a.frequency
  else a.frequency ≤ b.frequency

/-- The spacing ordering of adjacent ranked records demanded by the
spec, as directed by `distance_reversed`, on the `distance` attribute
the sort key reads. -/
def distOrd (distance_reversed : Bool) (a b : Hanzi) : Prop :=
  if distance_reversed then b.distanceVal ≤ a.distanceVal
  else a.distanceVal ≤ b.distanceVal

/-- A one-record book literal (used to instantiate universally
quantified theorems at concrete inputs). -/
def mkSmallBook (c : Char) (freq : ℕ) : Book :=
  let hz : Hanzi :=
    { hanzi := c, frequency := freq, occurrences := [0],
      distance := some 0, example_sentences := [[c]] }
  { title := "w", text := [c], sentences := [[c]], hanzi := [hz],
    sorted_hanzi := [hz], frequency_reversed := some true,
    distance_reversed := some true, total_hanzi := freq }

/-- A record with two example sentences (used to instantiate
universally quantified sampling theorems at a concrete input). -/
def sampleRecord : Hanzi :=
  { hanzi := '你', frequency := 2, occurrences := [0, 2], distance := some 2,
    example_sentences := [['你'], ['好', '你']] }

/-- The book analysed from the two-character text `你。` (used to
instantiate theorems at a concrete constructed book). -/
def bookYou : Book := getBook (constructBook "t" "你。".data)

/-- The text of the spec's example scenario. -/
def scenarioText : List Char := "他说：你好。他说：再见！".data

/-- The book analysed from the example-scenario text. -/
def scenarioBook : Book := getBook (constructBook "s" scenarioText)

/-- A one-record book with the same key and frequency as
`mkSmallBook` but different occurrences, distance and example
sentences (a pair of books with identical character sets and
frequencies that are not identical record lists). -/
def mkSmallBookVariant (c : Char) (freq : ℕ) : Book :=
  let hz : Hanzi :=
    { hanzi := c, frequency := freq, occurrences := [5],
      distance := some 3, example_sentences := [[c, c]] }
  { title := "w2", text := [c, c], sentences := [[c, c]], hanzi := [hz],
    sorted_hanzi := [hz], frequency_reversed := some true,
    distance_reversed := some true, total_hanzi := freq }

/-! ### Basic facts about the embedded operations -/

theorem matchMidStop_append (l : List Char) :
    ∀ m r, matchMidStop l = some (m, r) → m ++ r = l := by
  induction l with
  | nil => intro m r h; simp [matchMidStop] at h
  | cons c t ih =>
    intro m r h
    simp only [matchMidStop] at h
    by_cases hc : isMidChar c
    · simp only [hc, if_pos] at h
      cases hm : matchMidStop t with
      | some p =>
        obtain ⟨m', r'⟩ := p
        rw [hm] at h
        simp only [Option.some.injEq, Prod.mk.injEq] at h
        obtain ⟨hm1, hr1⟩ := h
        subst hm1; subst hr1
        simp [ih m' r' hm]
      | none =>
        rw [hm] at h
        by_cases hs : isStopChar c
        · simp only [hs, if_pos, Option.some.injEq, Prod.mk.injEq] at h
          obtain ⟨hm1, hr1⟩ := h
          subst hm1; subst hr1
          simp [List.takeWhile_append_dropWhile]
        · simp [hs] at h
    · simp only [hc, if_neg, Bool.false_eq_true, not_false_iff] at h
      by_cases hs : isStopChar c
      · simp only [hs, if_pos, Option.some.injEq, Prod.mk.injEq] at h
        obtain ⟨hm1, hr1⟩ := h
        subst hm1; subst hr1
        simp [List.takeWhile_append_dropWhile]
      · simp [hs] at h

theorem matchAfterStart_append (l : List Char) :
    ∀ m r, matchAfterStart l = some (m, r) → m ++ r = l := by
  induction l with
  | nil => intro m r h; simp [matchAfterStart] at h
  | cons c t ih =>
    intro m r h
    simp only [matchAfterStart] at h
    by_cases hc : isStartChar c
    · simp only [hc, if_pos] at h
      cases hm : matchAfterStart t with
      | some p =>
        obtain ⟨m', r'⟩ := p
        rw [hm] at h
        simp only [Option.some.injEq, Prod.mk.injEq] at h
        obtain ⟨hm1, hr1⟩ := h
        subst hm1; subst hr1
        simp [ih m' r' hm]
      | none =>
        rw [hm] at h
        exact matchMidStop_append _ _ _ h
    · simp only [hc, if_neg, Bool.false_eq_true, not_false_iff] at h
      exact matchMidStop_append _ _ _ h

theorem matchSentence_append (l : List Char) (m r : List Char)
    (h : matchSentence l = some (m, r)) : m ++ r = l ∧ m ≠ [] := by
  match l with
  | [] => simp [matchSentence] at h
  | c :: t =>
    simp only [matchSentence] at h
    by_cases hc : isStartChar c
    · simp only [hc, if_pos] at h
      cases hm : matchAfterStart t with
      | some p =>
        obtain ⟨m', r'⟩ := p
        rw [hm] at h
        simp only [Option.some.injEq, Prod.mk.injEq] at h
        obtain ⟨hm1, hr1⟩ := h
        subst hm1; subst hr1
        refine ⟨?_, by simp⟩
        simp [matchAfterStart_append t m' r' hm]
      | none => rw [hm] at h; simp at h
    · simp [hc] at h

theorem findSentencesFuel_irrel :
    ∀ (f₁ f₂ : ℕ) (l : List Char), l.length ≤ f₁ → l.length ≤ f₂ →
      findSentencesFuel f₁ l = findSentencesFuel f₂ l := by
  intro f₁
  induction f₁ with
  | zero =>
    intro f₂ l h1 _
    have : l = [] := List.length_eq_zero.mp (Nat.le_zero.mp h1)
    subst this
    cases f₂ <;> rfl
  | succ f ih =>
    intro f₂ l h1 h2
    cases l with
    | nil => cases f₂ <;> rfl
    | cons c t =>
      cases f₂ with
      | zero => simp at h2
      | succ f₂' =>
        simp only [findSentencesFuel]
        cases hm : matchSentence (c :: t) with
        | some p =>
          obtain ⟨m, r⟩ := p
          obtain ⟨happ, hne⟩ := matchSentence_append _ _ _ hm
          have hlen : m.length + r.length = t.length + 1 := by
            have := congrArg List.length happ
            simpa using this
          have hm1 : 1 ≤ m.length := by
            cases m with
            | nil => exact absurd rfl hne
            | cons a b => simp
          have hr : r.length ≤ f ∧ r.length ≤ f₂' := by
            simp only [List.length_cons] at h1 h2
            omega
          dsimp only
          rw [ih f₂' r hr.1 hr.2]
        | none =>
          have ht : t.length ≤ f ∧ t.length ≤ f₂' := by
            simp only [List.length_cons] at h1 h2
            omega
          dsimp only
          exact ih f₂' t ht.1 ht.2

theorem updateHanzi_ne_nil (acc : List Hanzi) (c : Char) (i : ℕ) :
    updateHanzi acc c i ≠ [] := by
  unfold updateHanzi
  by_cases h : acc.any (fun hz => hz.hanzi == c)
  · rw [if_pos h]
    cases acc with
    | nil => simp at h
    | cons x t => simp
  · rw [if_neg h]
    simp

theorem findHanziFrom_eq_nil (t : List Char) :
    ∀ (acc : List Hanzi) (i : ℕ),
      findHanziFrom acc i t = [] ↔ acc = [] ∧ ∀ c ∈ t, isHanziCP c = false := by
  induction t with
  | nil =>
    intro acc i
    simp [findHanziFrom]
  | cons c t ih =>
    intro acc i
    simp only [findHanziFrom]
    by_cases hc : isHanziCP c
    · rw [if_pos hc, ih]
      constructor
      · rintro ⟨h1, -⟩
        exact absurd h1 (updateHanzi_ne_nil acc c i)
      · rintro ⟨-, hall⟩
        exact absurd (hall c (List.mem_cons_self c t)) (by simp [hc])
    · rw [if_neg hc, ih]
      constructor
      · rintro ⟨h1, h2⟩
        refine ⟨h1, fun d hd => ?_⟩
        rcases List.mem_cons.mp hd with h | h
        · subst h
          simpa using hc
        · exact h2 d h
      · rintro ⟨h1, h2⟩
        exact ⟨h1, fun d hd => h2 d (List.mem_cons_of_mem c hd)⟩

theorem find_example_sentences_error (sentences : List (List Char))
    (hz : Hanzi) (e : AnalysisError)
    (h : find_example_sentences sentences hz = .error e) :
    e = .noExampleSentences := by
  simp only [find_example_sentences] at h
  split at h
  · exact (Except.error.inj h).symm
  · simp at h

theorem processHanzi_error_eq (sentences : List (List Char)) :
    ∀ (l : List Hanzi) (e : AnalysisError),
      processHanzi sentences l = .error e → e = .noExampleSentences := by
  intro l
  induction l with
  | nil =>
    intro e h
    simp [processHanzi] at h
  | cons hz t ih =>
    intro e h
    simp only [processHanzi] at h
    cases hfe : find_example_sentences sentences (calculate_average_distance hz) with
    | error e' =>
      rw [hfe] at h
      simp only [Except.error.injEq] at h
      rw [← h]
      exact find_example_sentences_error _ _ _ hfe
    | ok hz' =>
      rw [hfe] at h
      cases hp : processHanzi sentences t with
      | error e2 =>
        rw [hp] at h
        simp only [Except.error.injEq] at h
        rw [← h]
        exact ih e2 hp
      | ok t' =>
        rw [hp] at h
        simp at h

theorem constructBook_error_iff (title : String) (text : List Char)
    (e : AnalysisError) :
    constructBook title text = .error e ↔
      find_and_process_unique_hanzi text = .error e := by
  unfold constructBook
  cases h : find_and_process_unique_hanzi text with
  | error e' => simp
  | ok p =>
    obtain ⟨a, b⟩ := p
    simp

theorem find_and_process_noHanzi_iff (text : List Char) :
    find_and_process_unique_hanzi text = .error .noHanziFound ↔
      findUniqueHanzi text = [] := by
  unfold find_and_process_unique_hanzi
  by_cases h : findUniqueHanzi text = []
  · rw [h]
    simp
  · have hne : (findUniqueHanzi text).isEmpty = false := by
      simpa [List.isEmpty_iff] using h
    simp only [hne, Bool.false_eq_true, if_false]
    constructor
    · intro hcon
      exfalso
      by_cases hs : (segmentText text).isEmpty
      · rw [if_pos hs] at hcon
        simp at hcon
      · rw [if_neg (by simp [hs])] at hcon
        cases hp : processHanzi (segmentText text) (findUniqueHanzi text) with
        | ok processed =>
          rw [hp] at hcon
          simp at hcon
        | error e2 =>
          rw [hp] at hcon
          have h2 := processHanzi_error_eq _ _ _ hp
          simp only [Except.error.injEq] at hcon
          rw [hcon] at h2
          exact absurd h2 (by simp)
    · intro hfalse
      exact absurd hfalse h

/-- C6: construction fails with `NoHanziFound` exactly when no position
of the text is a single character in the Unicode ideograph range
U+4E00–U+9FFF; on that failure no book is produced (the error
propagates out of the constructor). -/
theorem noHanziFound_iff (title : String) (text : List Char) :
    constructBook title text = .error .noHanziFound ↔
      ∀ c ∈ text, isHanziCP c = false := by
  have hnil := findHanziFrom_eq_nil text [] 0
  rw [constructBook_error_iff, find_and_process_noHanzi_iff]
  unfold findUniqueHanzi
  rw [hnil]
  simp

/-- C8: requesting the ranked view twice with the same
`(frequency_reversed, distance_reversed)` pair makes the second
request a no-op: the book state — cached sorted view and stored flag
pair included — is returned unchanged. -/
theorem sort_hanzi_idempotent (b : Book) (fr dr : Bool) :
    sort_hanzi (sort_hanzi b fr dr) fr dr = sort_hanzi b fr dr := by
  unfold sort_hanzi
  by_cases h : b.frequency_reversed = some fr ∧ b.distance_reversed = some dr
  · simp [h]
  · simp [h]

/-- C9: the sampling helper never raises: it yields at most `how_many`
sentences drawn without replacement from the record's example
sentences (all of them when fewer are available), and the empty list
when `how_many ≤ 0` or when no example sentence exists. The random
shuffle is supplied as any permutation of the example sentences. -/
theorem get_random_example_sentences_spec (hz : Hanzi) (how_many : ℤ)
    (shuffled : List (List Char))
    (hperm : shuffled.Perm hz.example_sentences) :
    (get_random_example_sentences shuffled hz how_many).Subperm hz.example_sentences
    ∧ (0 ≤ how_many →
        ((get_random_example_sentences shuffled hz how_many).length : ℤ)
          = min how_many (hz.example_sentences.length : ℤ))
    ∧ (how_many ≤ 0 → get_random_example_sentences shuffled hz how_many = [])
    ∧ (hz.example_sentences = [] →
        get_random_example_sentences shuffled hz how_many = []) := by
  have hlen : shuffled.length = hz.example_sentences.length := hperm.length_eq
  by_cases hneg : how_many < 0
  · have hk : min how_many (hz.example_sentences.length : ℤ) < 0 :=
      lt_of_le_of_lt (min_le_left _ _) hneg
    have hres : get_random_example_sentences shuffled hz how_many = [] := by
      unfold get_random_example_sentences pyRandomSample
      rw [if_pos (Or.inl hk)]
    refine ⟨?_, ?_, ?_, ?_⟩
    · rw [hres]
      exact List.nil_subperm
    · intro h0
      omega
    · intro _
      exact hres
    · intro _
      exact hres
  · push_neg at hneg
    have hk0 : 0 ≤ min how_many (hz.example_sentences.length : ℤ) :=
      le_min hneg (Int.ofNat_nonneg _)
    have hkle : min how_many (hz.example_sentences.length : ℤ) ≤
        (hz.example_sentences.length : ℤ) := min_le_right _ _
    have hsample : pyRandomSample hz.example_sentences shuffled
        (min how_many (hz.example_sentences.length : ℤ)) =
        .ok (shuffled.take (min how_many (hz.example_sentences.length : ℤ)).toNat) := by
      unfold pyRandomSample
      rw [if_neg]
      push_neg
      exact ⟨hk0, hkle⟩
    have hres : get_random_example_sentences shuffled hz how_many =
        shuffled.take (min how_many (hz.example_sentences.length : ℤ)).toNat := by
      unfold get_random_example_sentences
      rw [hsample]
    refine ⟨?_, ?_, ?_, ?_⟩
    · rw [hres]
      exact ((List.take_sublist _ _).subperm).trans hperm.subperm
    · intro _
      rw [hres]
      rw [List.length_take]
      omega
    · intro hle
      have h0 : how_many = 0 := le_antisymm hle hneg
      rw [hres, h0]
      simp
    · intro hnilex
      rw [hres, hnilex]
      simp only [List.length_nil, Nat.cast_zero]
      have : min how_many (0 : ℤ) = 0 := by omega
      rw [this]
      simp [List.take_zero]

theorem get_random_example_sentences_spec_witness :
    ([['好', '你'], ['你']] : List (List Char)).Perm sampleRecord.example_sentences
    ∧ ((get_random_example_sentences [['好', '你'], ['你']] sampleRecord 5).Subperm
          sampleRecord.example_sentences
      ∧ (0 ≤ (5 : ℤ) →
          ((get_random_example_sentences [['好', '你'], ['你']] sampleRecord 5).length : ℤ)
            = min 5 (sampleRecord.example_sentences.length : ℤ))
      ∧ ((5 : ℤ) ≤ 0 →
          get_random_example_sentences [['好', '你'], ['你']] sampleRecord 5 = [])
      ∧ (sampleRecord.example_sentences = [] →
          get_random_example_sentences [['好', '你'], ['你']] sampleRecord 5 = [])) :=
  ⟨by decide, get_random_example_sentences_spec sampleRecord 5 _ (by decide)⟩

/-- C4: for a successfully constructed book, a hanzi-to-learn request
with `comprehension_percentage = 100` sets `last_hanzi_index` to
`len(ranked) - 1` — the slice extends to the final ranked record —
regardless of any rounding in the accumulation loop, which that
branch never runs. -/
theorem comprehension100_last_index (title : String) (text : List Char)
    (b : Book) (hb : constructBook title text = .ok b)
    (fr dr : Bool) :
    lastHanziIndex (sort_hanzi b fr dr) 100 =
      some (((sort_hanzi b fr dr).sorted_hanzi.length : ℤ) - 1) := by
  unfold lastHanziIndex
  simp

theorem comprehension100_last_index_witness :
    constructBook "t" "你。".data = .ok bookYou
    ∧ lastHanziIndex (sort_hanzi bookYou true true) 100 =
        some (((sort_hanzi bookYou true true).sorted_hanzi.length : ℤ) - 1) :=
  ⟨by decide, comprehension100_last_index "t" "你。".data bookYou (by decide) true true⟩

/-- C1 evaluated at a failing input: every record's frequency is
strictly above the threshold `0`, `index_of_first` returns the `-1`
sentinel, yet at `comprehension_percentage = 100` the Python slice
`ranked[-1 : len]` wraps around to the last ranked record instead of
being empty — the selection is nonempty, contradicting the
empty-result policy the code's own comment asserts. -/
theorem threshold_below_all_slice_nonempty :
    constructBook "t" "你。".data = .ok bookYou
    ∧ (∀ hz ∈ bookYou.hanzi, (0 : ℤ) < (hz.frequency : ℤ))
    ∧ index_of_first (sort_hanzi bookYou true true).sorted_hanzi
        (fun hz => (hz.frequency : ℤ) ≤ 0) = -1
    ∧ export_hanzi_to_learn bookYou 100 0 true true =
        some [{ hanzi := '你', frequency := 1, occurrences := [0],
                distance := some 0, example_sentences := [['你', '。']] }]
    ∧ export_hanzi_to_learn bookYou 100 0 true true ≠ some [] := by
  decide

/-- C7 counterexample: in the example scenario the second 他 sits at
position 6, not 7 (so the claimed occurrence positions and spacing 7
are wrong), and 说 occurs twice, not once. -/
theorem scenario_claim_refuted :
    constructBook "s" scenarioText = .ok scenarioBook
    ∧ occOfChar scenarioBook.hanzi '他' ≠ some [0, 7]
    ∧ distOfChar scenarioBook.hanzi '他' ≠ some (some 7)
    ∧ freqOfChar scenarioBook.hanzi '说' ≠ some 1 := by
  decide

/-- C7 as amended: the scenario text yields exactly the two sentences
bounded at 。 and ！; 他 has frequency 2, occurrences 0 and 6 and
spacing 6; 说 has frequency 2, occurrences 1 and 7 and spacing 6; and
each of 你, 好, 再, 见 has frequency 1 and spacing 0. -/
theorem scenario_amended :
    scenarioBook.sentences = ["他说：你好。".data, "他说：再见！".data]
    ∧ freqOfChar scenarioBook.hanzi '他' = some 2
    ∧ occOfChar scenarioBook.hanzi '他' = some [0, 6]
    ∧ distOfChar scenarioBook.hanzi '他' = some (some 6)
    ∧ freqOfChar scenarioBook.hanzi '说' = some 2
    ∧ occOfChar scenarioBook.hanzi '说' = some [1, 7]
    ∧ distOfChar scenarioBook.hanzi '说' = some (some 6)
    ∧ freqOfChar scenarioBook.hanzi '你' = some 1
    ∧ distOfChar scenarioBook.hanzi '你' = some (some 0)
    ∧ freqOfChar scenarioBook.hanzi '好' = some 1
    ∧ distOfChar scenarioBook.hanzi '好' = some (some 0)
    ∧ freqOfChar scenarioBook.hanzi '再' = some 1
    ∧ distOfChar scenarioBook.hanzi '再' = some (some 0)
    ∧ freqOfChar scenarioBook.hanzi '见' = some 1
    ∧ distOfChar scenarioBook.hanzi '见' = some (some 0) := by
  decide

/-- C2 counterexample: the text 。你 contains a hanzi and a valid
sentence terminator, yet construction raises `NoSentencesFound`,
because the terminator precedes every sentence-starting character and
no sentence matches. -/
theorem hanzi_and_stop_construction_fails :
    (∃ c ∈ "。你".data, isHanziCP c = true)
    ∧ (∃ c ∈ "。你".data, isStopChar c = true)
    ∧ constructBook "t" "。你".data = .error .noSentencesFound := by
  decide

theorem calculate_average_distance_fields (hz : Hanzi) :
    (calculate_average_distance hz).hanzi = hz.hanzi
    ∧ (calculate_average_distance hz).frequency = hz.frequency
    ∧ (calculate_average_distance hz).occurrences = hz.occurrences
    ∧ (calculate_average_distance hz).example_sentences = hz.example_sentences := by
  unfold calculate_average_distance
  by_cases h1 : hz.frequency > 1
  · simp [h1]
  · by_cases h2 : hz.frequency == 1
    · simp [h1, h2]
    · simp [h1, h2]

theorem find_example_sentences_ok_fields (sentences : List (List Char))
    (hz hz' : Hanzi) (h : find_example_sentences sentences hz = .ok hz') :
    hz'.hanzi = hz.hanzi ∧ hz'.frequency = hz.frequency
    ∧ hz'.occurrences = hz.occurrences := by
  simp only [find_example_sentences] at h
  split at h
  · simp at h
  · rw [← Except.ok.inj h]
    exact ⟨rfl, rfl, rfl⟩

theorem find_example_sentences_ok_of_mem (sentences : List (List Char))
    (hz : Hanzi) (hex : ∃ s ∈ sentences, hz.hanzi ∈ s) :
    ∃ hz', find_example_sentences sentences hz = .ok hz' := by
  obtain ⟨s, hs, hcs⟩ := hex
  have hmem : s ∈ sentences.filter (fun x => x.contains hz.hanzi) :=
    List.mem_filter.mpr ⟨hs, by simpa using hcs⟩
  have hne : hz.example_sentences ++
      sentences.filter (fun x => x.contains hz.hanzi) ≠ [] := by
    intro hnil
    rw [List.append_eq_nil] at hnil
    rw [hnil.2] at hmem
    simp at hmem
  refine ⟨{ hz with example_sentences :=
    hz.example_sentences ++ sentences.filter (fun x => x.contains hz.hanzi) }, ?_⟩
  simp only [find_example_sentences]
  rw [if_neg (by simpa [List.isEmpty_iff] using hne)]

theorem processHanzi_ok_of_examples (sentences : List (List Char)) :
    ∀ (l : List Hanzi), (∀ hz ∈ l, ∃ s ∈ sentences, hz.hanzi ∈ s) →
      ∃ l', processHanzi sentences l = .ok l' := by
  intro l
  induction l with
  | nil =>
    intro _
    exact ⟨[], rfl⟩
  | cons hz t ih =>
    intro hall
    have hex : ∃ s ∈ sentences, (calculate_average_distance hz).hanzi ∈ s := by
      rw [(calculate_average_distance_fields hz).1]
      exact hall hz (List.mem_cons_self hz t)
    obtain ⟨hz', hhz'⟩ := find_example_sentences_ok_of_mem sentences _ hex
    obtain ⟨t', ht'⟩ := ih (fun x hx => hall x (List.mem_cons_of_mem hz hx))
    refine ⟨hz' :: t', ?_⟩
    simp only [processHanzi]
    rw [hhz', ht']

theorem processHanzi_ok_maps (sentences : List (List Char)) :
    ∀ (l l' : List Hanzi), processHanzi sentences l = .ok l' →
      l'.map (fun hz => hz.hanzi) = l.map (fun hz => hz.hanzi)
      ∧ l'.map (fun hz => hz.frequency) = l.map (fun hz => hz.frequency) := by
  intro l
  induction l with
  | nil =>
    intro l' h
    simp only [processHanzi] at h
    rw [← Except.ok.inj h]
    exact ⟨rfl, rfl⟩
  | cons hz t ih =>
    intro l' h
    simp only [processHanzi] at h
    cases hfe : find_example_sentences sentences (calculate_average_distance hz) with
    | error e => rw [hfe] at h; simp at h
    | ok hz' =>
      rw [hfe] at h
      cases hp : processHanzi sentences t with
      | error e => rw [hp] at h; simp at h
      | ok t' =>
        rw [hp] at h
        rw [← Except.ok.inj h]
        obtain ⟨hk, hf, -⟩ := find_example_sentences_ok_fields _ _ _ hfe
        obtain ⟨hk2, hf2⟩ := ih t' hp
        obtain ⟨ck, cf, -, -⟩ := calculate_average_distance_fields hz
        constructor
        · simp only [List.map_cons, hk2, hk, ck]
        · simp only [List.map_cons, hf2, hf, cf]

theorem sort_hanzi_fresh (b : Book) (fr dr : Bool)
    (hf : ¬ (b.frequency_reversed = some fr ∧ b.distance_reversed = some dr)) :
    sort_hanzi b fr dr =
      { b with sorted_hanzi := sortHanziList b.hanzi fr dr,
               frequency_reversed := some fr, distance_reversed := some dr } := by
  unfold sort_hanzi
  rw [if_neg hf]

theorem sort_hanzi_cached (b : Book) (fr dr : Bool)
    (hf : b.frequency_reversed = some fr) (hd : b.distance_reversed = some dr) :
    sort_hanzi b fr dr = b := by
  unfold sort_hanzi
  rw [if_pos ⟨hf, hd⟩]

theorem constructBook_eq_ok (title : String) (text : List Char) (l' : List Hanzi)
    (h1 : findUniqueHanzi text ≠ [])
    (h2 : segmentText text ≠ [])
    (hp : processHanzi (segmentText text) (findUniqueHanzi text) = .ok l') :
    constructBook title text = .ok
      { title := title, text := text, sentences := segmentText text,
        hanzi := l',
        sorted_hanzi := sortHanziList l' true true,
        frequency_reversed := some true, distance_reversed := some true,
        total_hanzi := ((sortHanziList l' true true).map (fun hz => hz.frequency)).sum } := by
  have hE : (findUniqueHanzi text).isEmpty = false := by
    simpa [List.isEmpty_iff] using h1
  have hS : (segmentText text).isEmpty = false := by
    simpa [List.isEmpty_iff] using h2
  unfold constructBook find_and_process_unique_hanzi
  simp only [hE, hS, Bool.false_eq_true, if_false, hp]
  rw [sort_hanzi_fresh _ true true (by simp)]
  unfold calculate_statistics
  rw [sort_hanzi_cached _ true true rfl rfl]

theorem sortHanziList_perm (l : List Hanzi) (fr dr : Bool) :
    (sortHanziList l fr dr).Perm l := by
  unfold sortHanziList pySortByKey
  exact (List.perm_insertionSort _ _).trans (List.perm_insertionSort _ _)

/-- C2 as amended: for every text containing at least one hanzi, whose
segmentation yields at least one sentence, and in which every
discovered character occurs in at least one segmented sentence,
construction succeeds and the sum of all records' frequencies equals
`total_character_count`. (The original claim fails: a terminator that
precedes every hanzi leaves segmentation empty, see the
counterexample.) -/
theorem construction_succeeds_sum_frequencies (title : String) (text : List Char)
    (h1 : findUniqueHanzi text ≠ [])
    (h2 : segmentText text ≠ [])
    (h3 : ∀ hz ∈ findUniqueHanzi text, ∃ s ∈ segmentText text, hz.hanzi ∈ s) :
    ∃ b, constructBook title text = .ok b
      ∧ (b.hanzi.map (fun hz => hz.frequency)).sum = b.total_hanzi := by
  obtain ⟨l', hp⟩ := processHanzi_ok_of_examples _ _ h3
  refine ⟨_, constructBook_eq_ok title text l' h1 h2 hp, ?_⟩
  exact (((sortHanziList_perm l' true true).map (fun hz => hz.frequency)).sum_eq).symm

theorem construction_succeeds_sum_frequencies_witness :
    findUniqueHanzi "你。".data ≠ []
    ∧ segmentText "你。".data ≠ []
    ∧ (∀ hz ∈ findUniqueHanzi "你。".data,
        ∃ s ∈ segmentText "你。".data, hz.hanzi ∈ s)
    ∧ ∃ b, constructBook "t" "你。".data = .ok b
        ∧ (b.hanzi.map (fun hz => hz.frequency)).sum = b.total_hanzi :=
  ⟨by decide, by decide, by decide,
    construction_succeeds_sum_frequencies "t" "你。".data
      (by decide) (by decide) (by decide)⟩

theorem find_and_process_noSentences (text : List Char)
    (h1 : findUniqueHanzi text ≠ []) (h2 : segmentText text = []) :
    find_and_process_unique_hanzi text = .error .noSentencesFound := by
  have hE : (findUniqueHanzi text).isEmpty = false := by
    simpa [List.isEmpty_iff] using h1
  unfold find_and_process_unique_hanzi
  simp only [hE, Bool.false_eq_true, if_false, h2]
  simp

theorem find_and_process_processError (text : List Char) (e : AnalysisError)
    (h1 : findUniqueHanzi text ≠ []) (h2 : segmentText text ≠ [])
    (hp : processHanzi (segmentText text) (findUniqueHanzi text) = .error e) :
    find_and_process_unique_hanzi text = .error e := by
  have hE : (findUniqueHanzi text).isEmpty = false := by
    simpa [List.isEmpty_iff] using h1
  have hS : (segmentText text).isEmpty = false := by
    simpa [List.isEmpty_iff] using h2
  unfold find_and_process_unique_hanzi
  simp only [hE, hS, Bool.false_eq_true, if_false, hp]

theorem constructBook_ok_elim (title : String) (text : List Char) (b : Book)
    (hb : constructBook title text = .ok b) :
    ∃ l', processHanzi (segmentText text) (findUniqueHanzi text) = .ok l'
      ∧ findUniqueHanzi text ≠ []
      ∧ segmentText text ≠ []
      ∧ b = { title := title, text := text, sentences := segmentText text,
              hanzi := l', sorted_hanzi := sortHanziList l' true true,
              frequency_reversed := some true, distance_reversed := some true,
              total_hanzi :=
                ((sortHanziList l' true true).map (fun hz => hz.frequency)).sum } := by
  by_cases h1 : findUniqueHanzi text = []
  · exfalso
    have herr := (constructBook_error_iff title text .noHanziFound).mpr
      ((find_and_process_noHanzi_iff text).mpr h1)
    rw [hb] at herr
    simp at herr
  by_cases h2 : segmentText text = []
  · exfalso
    have herr := (constructBook_error_iff title text .noSentencesFound).mpr
      (find_and_process_noSentences text h1 h2)
    rw [hb] at herr
    simp at herr
  cases hp : processHanzi (segmentText text) (findUniqueHanzi text) with
  | error e =>
    exfalso
    have herr := (constructBook_error_iff title text e).mpr
      (find_and_process_processError text e h1 h2 hp)
    rw [hb] at herr
    simp at herr
  | ok l' =>
    have heq := constructBook_eq_ok title text l' h1 h2 hp
    rw [hb] at heq
    exact ⟨l', rfl, h1, h2, Except.ok.inj heq⟩

theorem sort_hanzi_total (b : Book) (fr dr : Bool) :
    (sort_hanzi b fr dr).total_hanzi = b.total_hanzi := by
  unfold sort_hanzi
  split
  · rfl
  · rfl

theorem sort_hanzi_hanzi (b : Book) (fr dr : Bool) :
    (sort_hanzi b fr dr).hanzi = b.hanzi := by
  unfold sort_hanzi
  split
  · rfl
  · rfl

theorem sort_hanzi_sorted_perm (title : String) (text : List Char) (b : Book)
    (hb : constructBook title text = .ok b) (fr dr : Bool) :
    (sort_hanzi b fr dr).sorted_hanzi.Perm b.hanzi := by
  obtain ⟨l', hp, h1, h2, hbeq⟩ := constructBook_ok_elim title text b hb
  subst hbeq
  unfold sort_hanzi
  split
  · exact sortHanziList_perm l' true true
  · exact sortHanziList_perm l' fr dr

theorem updateHanzi_freq_pos (acc : List Hanzi) (c : Char) (i : ℕ)
    (hacc : ∀ hz ∈ acc, 1 ≤ hz.frequency) :
    ∀ hz ∈ updateHanzi acc c i, 1 ≤ hz.frequency := by
  unfold updateHanzi
  split
  · intro hz hmem
    obtain ⟨x, hx, hfx⟩ := List.mem_map.mp hmem
    by_cases h : x.hanzi == c
    · rw [if_pos h] at hfx
      rw [← hfx]
      simp
    · rw [if_neg h] at hfx
      rw [← hfx]
      exact hacc x hx
  · intro hz hmem
    rcases List.mem_append.mp hmem with h | h
    · exact hacc hz h
    · simp only [List.mem_singleton] at h
      rw [h]

theorem findHanziFrom_freq_pos (t : List Char) :
    ∀ (acc : List Hanzi) (i : ℕ), (∀ hz ∈ acc, 1 ≤ hz.frequency) →
      ∀ hz ∈ findHanziFrom acc i t, 1 ≤ hz.frequency := by
  induction t with
  | nil =>
    intro acc i hacc
    simpa [findHanziFrom] using hacc
  | cons c t ih =>
    intro acc i hacc
    simp only [findHanziFrom]
    apply ih
    by_cases hc : isHanziCP c
    · rw [if_pos hc]
      exact updateHanzi_freq_pos acc c i hacc
    · rw [if_neg hc]
      exact hacc

theorem constructBook_total_eq (title : String) (text : List Char) (b : Book)
    (hb : constructBook title text = .ok b) :
    b.total_hanzi = (b.hanzi.map (fun hz => hz.frequency)).sum := by
  obtain ⟨l', hp, h1, h2, hbeq⟩ := constructBook_ok_elim title text b hb
  subst hbeq
  exact ((sortHanziList_perm l' true true).map (fun hz => hz.frequency)).sum_eq

theorem constructBook_hanzi_ne_nil (title : String) (text : List Char) (b : Book)
    (hb : constructBook title text = .ok b) : b.hanzi ≠ [] := by
  obtain ⟨l', hp, h1, h2, hbeq⟩ := constructBook_ok_elim title text b hb
  obtain ⟨hkm, -⟩ := processHanzi_ok_maps _ _ _ hp
  have hl' : l' ≠ [] := by
    intro hnil
    rw [hnil] at hkm
    simp only [List.map_nil] at hkm
    exact h1 (List.map_eq_nil_iff.mp hkm.symm)
  rw [hbeq]
  exact hl'

theorem constructBook_freq_pos (title : String) (text : List Char) (b : Book)
    (hb : constructBook title text = .ok b) :
    ∀ hz ∈ b.hanzi, 1 ≤ hz.frequency := by
  obtain ⟨l', hp, h1, h2, hbeq⟩ := constructBook_ok_elim title text b hb
  subst hbeq
  obtain ⟨-, hfm⟩ := processHanzi_ok_maps _ _ _ hp
  intro hz hmem
  have hmem2 : hz.frequency ∈ l'.map (fun hz => hz.frequency) :=
    List.mem_map_of_mem _ hmem
  rw [hfm] at hmem2
  obtain ⟨hz0, hmem0, heq⟩ := List.mem_map.mp hmem2
  rw [← heq]
  exact findHanziFrom_freq_pos text [] 0 (by simp) hz0 hmem0

theorem constructBook_total_pos (title : String) (text : List Char) (b : Book)
    (hb : constructBook title text = .ok b) : 0 < b.total_hanzi := by
  rw [constructBook_total_eq title text b hb]
  obtain ⟨h0, t0, hcons⟩ :=
    List.exists_cons_of_ne_nil (constructBook_hanzi_ne_nil title text b hb)
  have hf := constructBook_freq_pos title text b hb h0 (by rw [hcons]; simp)
  rw [hcons]
  simp only [List.map_cons, List.sum_cons]
  omega

theorem pyRound2_hundred : pyRound2 100 = 100 := by
  have h : ((100 : ℚ) * 100) = ((10000 : ℤ) : ℚ) := by norm_num
  unfold pyRound2 pyRound
  rw [h, Int.floor_intCast]
  norm_num

theorem lastIndexLoop_reaches (total : ℕ) (cp : ℤ) :
    ∀ (l : List Hanzi) (pct : ℚ) (idx : ℕ),
      ¬ (pyRound2 (pct +
          (l.map (fun hz => (hz.frequency : ℚ) / (total : ℚ) * 100)).sum) < (cp : ℚ)) →
      ∃ k, lastIndexLoop total cp pct idx l = some k ∧ k ≤ idx + l.length := by
  intro l
  induction l with
  | nil =>
    intro pct idx h
    simp only [List.map_nil, List.sum_nil, add_zero] at h
    refine ⟨idx, ?_, by omega⟩
    simp only [lastIndexLoop]
    rw [if_neg h]
  | cons hz t ih =>
    intro pct idx h
    by_cases hc : pyRound2 pct < (cp : ℚ)
    · have h' : ¬ (pyRound2 ((pct + (hz.frequency : ℚ) / (total : ℚ) * 100) +
          (t.map (fun hz => (hz.frequency : ℚ) / (total : ℚ) * 100)).sum) < (cp : ℚ)) := by
        simp only [List.map_cons, List.sum_cons, ← add_assoc] at h
        exact h
      obtain ⟨k, hk, hkle⟩ := ih (pct + (hz.frequency : ℚ) / (total : ℚ) * 100) (idx + 1) h'
      refine ⟨k, ?_, by simp only [List.length_cons]; omega⟩
      simp only [lastIndexLoop]
      rw [if_pos hc]
      exact hk
    · refine ⟨idx, ?_, by omega⟩
      simp only [lastIndexLoop]
      rw [if_neg hc]

theorem contrib_sum_eq_100 (l : List Hanzi) (total : ℕ)
    (htot : total = (l.map (fun hz => hz.frequency)).sum) (hpos : 0 < total) :
    (l.map (fun hz => (hz.frequency : ℚ) / (total : ℚ) * 100)).sum = 100 := by
  have hT : ((total : ℚ)) ≠ 0 := ne_of_gt (by exact_mod_cast hpos)
  have h1 : ∀ hz ∈ l, (hz.frequency : ℚ) / (total : ℚ) * 100
      = (hz.frequency : ℚ) * (100 / (total : ℚ)) := by
    intro hz _
    ring
  rw [List.map_congr_left h1, List.sum_map_mul_right]
  have h2 : (l.map (fun hz => ((hz.frequency : ℕ) : ℚ))).sum
      = (((l.map (fun hz => hz.frequency)).sum : ℕ) : ℚ) := by
    rw [Nat.cast_list_sum, List.map_map]
    rfl
  rw [h2, ← htot]
  field_simp

/-- C10: for a successfully constructed book and any
`0 ≤ comprehension_percentage ≤ 100`, the percentage-accumulation loop
terminates before running past the end of the ranked sequence: it only
reads indices strictly below its length (modelled: the loop returns an
index rather than the `IndexError` marker, and that index is at most
the length). Floating-point accumulation is modelled by exact
rationals. -/
theorem selection_loop_in_range (title : String) (text : List Char) (b : Book)
    (hb : constructBook title text = .ok b) (cp : ℤ)
    (hcp0 : 0 ≤ cp) (hcp1 : cp ≤ 100) (fr dr : Bool) :
    ∃ k : ℤ, lastHanziIndex (sort_hanzi b fr dr) cp = some k
      ∧ k ≤ (((sort_hanzi b fr dr).sorted_hanzi.length : ℤ)) := by
  by_cases hcp : cp = 100
  · subst hcp
    refine ⟨((sort_hanzi b fr dr).sorted_hanzi.length : ℤ) - 1, ?_, by omega⟩
    unfold lastHanziIndex
    simp
  · have hperm := sort_hanzi_sorted_perm title text b hb fr dr
    have htotS := sort_hanzi_total b fr dr
    have htot : (sort_hanzi b fr dr).total_hanzi =
        ((sort_hanzi b fr dr).sorted_hanzi.map (fun hz => hz.frequency)).sum := by
      rw [htotS, constructBook_total_eq title text b hb]
      exact ((hperm.map (fun hz => hz.frequency)).sum_eq).symm
    have hpos : 0 < (sort_hanzi b fr dr).total_hanzi := by
      rw [htotS]
      exact constructBook_total_pos title text b hb
    have hsum := contrib_sum_eq_100 (sort_hanzi b fr dr).sorted_hanzi
      (sort_hanzi b fr dr).total_hanzi htot hpos
    have hhyp : ¬ (pyRound2 (0 +
        ((sort_hanzi b fr dr).sorted_hanzi.map
          (fun hz => (hz.frequency : ℚ) / ((sort_hanzi b fr dr).total_hanzi : ℚ) * 100)).sum)
        < (cp : ℚ)) := by
      rw [zero_add, hsum, pyRound2_hundred]
      push_neg
      exact_mod_cast hcp1
    obtain ⟨k, hk, hkle⟩ := lastIndexLoop_reaches (sort_hanzi b fr dr).total_hanzi cp
      (sort_hanzi b fr dr).sorted_hanzi 0 0 hhyp
    refine ⟨(k : ℤ), ?_, by omega⟩
    unfold lastHanziIndex
    rw [if_pos hcp, hk]
    rfl

theorem selection_loop_in_range_witness :
    constructBook "t" "你。".data = .ok bookYou
    ∧ (0 : ℤ) ≤ 50 ∧ (50 : ℤ) ≤ 100
    ∧ ∃ k : ℤ, lastHanziIndex (sort_hanzi bookYou true true) 50 = some k
        ∧ k ≤ ((sort_hanzi bookYou true true).sorted_hanzi.length : ℤ) :=
  ⟨by decide, by decide, by decide,
    selection_loop_in_range "t" "你。".data bookYou (by decide) 50
      (by decide) (by decide) true true⟩

theorem updateHanzi_keys (acc : List Hanzi) (c : Char) (i : ℕ) :
    (updateHanzi acc c i).map (fun hz => hz.hanzi) =
      (if acc.any (fun hz => hz.hanzi == c) = true
       then acc.map (fun hz => hz.hanzi)
       else acc.map (fun hz => hz.hanzi) ++ [c]) := by
  by_cases h : acc.any (fun hz => hz.hanzi == c) = true
  · rw [if_pos h]
    unfold updateHanzi
    rw [if_pos h, List.map_map]
    apply List.map_congr_left
    intro x _
    simp only [Function.comp_apply]
    split <;> rfl
  · rw [if_neg h]
    unfold updateHanzi
    rw [if_neg h]
    simp

theorem findHanziFrom_keys_nodup (t : List Char) :
    ∀ (acc : List Hanzi) (i : ℕ),
      ((acc.map (fun hz => hz.hanzi)).Nodup) →
      ((findHanziFrom acc i t).map (fun hz => hz.hanzi)).Nodup := by
  induction t with
  | nil =>
    intro acc i h
    simpa [findHanziFrom] using h
  | cons c t ih =>
    intro acc i h
    simp only [findHanziFrom]
    apply ih
    by_cases hc : isHanziCP c
    · rw [if_pos hc, updateHanzi_keys]
      by_cases h2 : acc.any (fun hz => hz.hanzi == c) = true
      · rw [if_pos h2]
        exact h
      · rw [if_neg h2]
        have hnc : c ∉ acc.map (fun hz => hz.hanzi) := by
          intro hmem
          obtain ⟨x, hx, hxc⟩ := List.mem_map.mp hmem
          exact h2 (List.any_eq_true.mpr ⟨x, hx, by simp [hxc]⟩)
        simp [List.nodup_append, h, hnc]
    · rw [if_neg hc]
      exact h

theorem constructBook_keys_nodup (title : String) (text : List Char) (b : Book)
    (hb : constructBook title text = .ok b) :
    (b.hanzi.map (fun hz => hz.hanzi)).Nodup := by
  obtain ⟨l', hp, h1, h2, hbeq⟩ := constructBook_ok_elim title text b hb
  obtain ⟨hkm, -⟩ := processHanzi_ok_maps _ _ _ hp
  have hdisc : ((findUniqueHanzi text).map (fun hz => hz.hanzi)).Nodup :=
    findHanziFrom_keys_nodup text [] 0 (by simp)
  have hl' : (l'.map (fun hz => hz.hanzi)).Nodup := by
    rw [hkm]
    exact hdisc
  rw [hbeq]
  exact hl'

theorem constructBook_flags (title : String) (text : List Char) (b : Book)
    (hb : constructBook title text = .ok b) :
    b.frequency_reversed = some true ∧ b.distance_reversed = some true
    ∧ b.sorted_hanzi = sortHanziList b.hanzi true true := by
  obtain ⟨l', hp, h1, h2, hbeq⟩ := constructBook_ok_elim title text b hb
  rw [hbeq]
  exact ⟨rfl, rfl, rfl⟩

theorem sort_hanzi_sorted_eq (title : String) (text : List Char) (b : Book)
    (hb : constructBook title text = .ok b) (fr dr : Bool) :
    (sort_hanzi b fr dr).sorted_hanzi = sortHanziList b.hanzi fr dr := by
  obtain ⟨hf, hd, hs⟩ := constructBook_flags title text b hb
  unfold sort_hanzi
  split
  · rename_i hcond
    have hfr : true = fr := Option.some.inj (hf.symm.trans hcond.1)
    have hdr : true = dr := Option.some.inj (hd.symm.trans hcond.2)
    rw [← hfr, ← hdr]
    exact hs
  · rfl

theorem pySortByKey_sorted (key : Hanzi → ℤ) (rev : Bool) (l : List Hanzi) :
    (pySortByKey key rev l).Pairwise
      (fun a b => if rev then key b ≤ key a else key a ≤ key b) := by
  haveI : IsTotal Hanzi (fun a b => if rev then key b ≤ key a else key a ≤ key b) := by
    constructor
    intro a b
    cases rev <;> simp <;> omega
  haveI : IsTrans Hanzi (fun a b => if rev then key b ≤ key a else key a ≤ key b) := by
    constructor
    intro a b c hab hbc
    cases rev <;> simp_all <;> omega
  exact List.sorted_insertionSort _ _

theorem pair_sublist_of_mem {α : Type} {a c : α} :
    ∀ {l : List α}, a ∈ l → c ∈ l → a ≠ c →
      List.Sublist [a, c] l ∨ List.Sublist [c, a] l := by
  intro l
  induction l with
  | nil =>
    intro ha
    simp at ha
  | cons x t ih =>
    intro ha hc hne
    rcases List.mem_cons.mp ha with rfl | ha'
    · have hc' : c ∈ t := by
        rcases List.mem_cons.mp hc with h | h
        · exact absurd h.symm hne
        · exact h
      exact Or.inl ((List.singleton_sublist.mpr hc').cons₂ a)
    · rcases List.mem_cons.mp hc with rfl | hc'
      · exact Or.inr ((List.singleton_sublist.mpr ha').cons₂ c)
      · rcases ih ha' hc' hne with h | h
        · exact Or.inl (h.cons x)
        · exact Or.inr (h.cons x)

/-- C3: for every constructed book and flag pair, the ranked output is
a permutation of the full record set (its length is the number of
unique characters), adjacent records are ordered by frequency per
`frequency_reversed`, and adjacent records of equal frequency are
ordered by the distance attribute per `distance_reversed`. -/
theorem ranked_view_sorted (title : String) (text : List Char) (b : Book)
    (hb : constructBook title text = .ok b) (fr dr : Bool) :
    (sort_hanzi b fr dr).sorted_hanzi.Perm b.hanzi
    ∧ (sort_hanzi b fr dr).sorted_hanzi.length = b.hanzi.length
    ∧ List.Chain'
        (fun a c => freqOrd fr a c ∧ (a.frequency = c.frequency → distOrd dr a c))
        (sort_hanzi b fr dr).sorted_hanzi := by
  have hperm : (sort_hanzi b fr dr).sorted_hanzi.Perm b.hanzi :=
    sort_hanzi_sorted_perm title text b hb fr dr
  refine ⟨hperm, hperm.length_eq, ?_⟩
  rw [sort_hanzi_sorted_eq title text b hb fr dr]
  have hnd : b.hanzi.Nodup := (constructBook_keys_nodup title text b hb).of_map
  have hDperm : (pySortByKey Hanzi.distanceVal dr b.hanzi).Perm b.hanzi :=
    List.perm_insertionSort _ _
  have hDnd : (pySortByKey Hanzi.distanceVal dr b.hanzi).Nodup :=
    hDperm.nodup_iff.mpr hnd
  have hDsort : (pySortByKey Hanzi.distanceVal dr b.hanzi).Pairwise
      (fun a c => if dr then c.distanceVal ≤ a.distanceVal
                  else a.distanceVal ≤ c.distanceVal) :=
    pySortByKey_sorted Hanzi.distanceVal dr b.hanzi
  have hLperm : (sortHanziList b.hanzi fr dr).Perm
      (pySortByKey Hanzi.distanceVal dr b.hanzi) := List.perm_insertionSort _ _
  have hLnd : (sortHanziList b.hanzi fr dr).Nodup := hLperm.nodup_iff.mpr hDnd
  have hLsort : (sortHanziList b.hanzi fr dr).Pairwise
      (fun a c => if fr then (c.frequency : ℤ) ≤ (a.frequency : ℤ)
                  else (a.frequency : ℤ) ≤ (c.frequency : ℤ)) :=
    pySortByKey_sorted (fun hz => (hz.frequency : ℤ)) fr
      (pySortByKey Hanzi.distanceVal dr b.hanzi)
  rw [List.chain'_iff_get]
  intro i hi
  constructor
  · have hrel := List.pairwise_iff_get.mp hLsort ⟨i, by omega⟩ ⟨i + 1, by omega⟩
      (by simp)
    unfold freqOrd
    cases fr
    · simp only [if_neg (by simp : ¬ (false = true))] at hrel ⊢
      exact_mod_cast hrel
    · simp only [if_pos rfl] at hrel ⊢
      exact_mod_cast hrel
  · intro hfeq
    have hneq : (sortHanziList b.hanzi fr dr).get ⟨i, by omega⟩ ≠
        (sortHanziList b.hanzi fr dr).get ⟨i + 1, by omega⟩ := by
      intro hEq
      have h2 := (hLnd.get_inj_iff).mp hEq
      simp only [Fin.mk.injEq] at h2
      omega
    have hmema : (sortHanziList b.hanzi fr dr).get ⟨i, by omega⟩ ∈
        pySortByKey Hanzi.distanceVal dr b.hanzi :=
      hLperm.mem_iff.mp (List.get_mem _ _ _)
    have hmemc : (sortHanziList b.hanzi fr dr).get ⟨i + 1, by omega⟩ ∈
        pySortByKey Hanzi.distanceVal dr b.hanzi :=
      hLperm.mem_iff.mp (List.get_mem _ _ _)
    rcases pair_sublist_of_mem hmema hmemc hneq with hsub | hsub
    · have hpair := List.pairwise_pair.mp (List.Pairwise.sublist hsub hDsort)
      unfold distOrd
      exact hpair
    · have hfr_rel : (fun a c => if fr then (c.frequency : ℤ) ≤ (a.frequency : ℤ)
          else (a.frequency : ℤ) ≤ (c.frequency : ℤ))
          ((sortHanziList b.hanzi fr dr).get ⟨i + 1, by omega⟩)
          ((sortHanziList b.hanzi fr dr).get ⟨i, by omega⟩) := by
        cases fr <;> simp at hfeq ⊢ <;> omega
      have hsub2 : List.Sublist
          [(sortHanziList b.hanzi fr dr).get ⟨i + 1, by omega⟩,
           (sortHanziList b.hanzi fr dr).get ⟨i, by omega⟩]
          (sortHanziList b.hanzi fr dr) :=
        List.pair_sublist_insertionSort hfr_rel hsub
      exfalso
      obtain ⟨is, hmap, hpw⟩ := List.sublist_eq_map_get hsub2
      cases is with
      | nil => simp at hmap
      | cons i1 is1 =>
        cases is1 with
        | nil => simp at hmap
        | cons i2 is2 =>
          cases is2 with
          | cons i3 is3 => simp at hmap
          | nil =>
            simp only [List.map_cons, List.map_nil, List.cons.injEq, and_true] at hmap
            obtain ⟨hc1, ha1⟩ := hmap
            have hlt : i1 < i2 := by
              have h3 := List.pairwise_cons.mp hpw
              exact h3.1 i2 (List.mem_singleton.mpr rfl)
            have e1 := (hLnd.get_inj_iff).mp hc1.symm
            have e2 := (hLnd.get_inj_iff).mp ha1.symm
            rw [e1, e2] at hlt
            simp only [Fin.mk_lt_mk] at hlt
            omega

theorem ranked_view_sorted_witness :
    constructBook "t" "你。".data = .ok bookYou
    ∧ ((sort_hanzi bookYou true true).sorted_hanzi.Perm bookYou.hanzi
      ∧ (sort_hanzi bookYou true true).sorted_hanzi.length = bookYou.hanzi.length
      ∧ List.Chain'
          (fun a c => freqOrd true a c ∧ (a.frequency = c.frequency → distOrd true a c))
          (sort_hanzi bookYou true true).sorted_hanzi) :=
  ⟨by decide, ranked_view_sorted "t" "你。".data bookYou (by decide) true true⟩

theorem find_key_of_nodup :
    ∀ (l : List Hanzi) (hz : Hanzi),
      ((l.map (fun h => h.hanzi)).Nodup) → hz ∈ l →
      l.find? (fun h => h.hanzi == hz.hanzi) = some hz := by
  intro l
  induction l with
  | nil =>
    intro hz _ hmem
    simp at hmem
  | cons x t ih =>
    intro hz hnd hmem
    simp only [List.map_cons, List.nodup_cons] at hnd
    rcases List.mem_cons.mp hmem with rfl | hmem'
    · rw [List.find?_cons_of_pos _ (by simp)]
    · have hx : ¬ ((x.hanzi == hz.hanzi) = true) := by
        intro hbeq
        apply hnd.1
        have hxeq : x.hanzi = hz.hanzi := by simpa using hbeq
        rw [hxeq]
        exact List.mem_map_of_mem _ hmem'
      rw [show List.find? (fun h => h.hanzi == hz.hanzi) (x :: t)
            = List.find? (fun h => h.hanzi == hz.hanzi) t
          from List.find?_cons_of_neg t hx]
      exact ih hz hnd.2 hmem'

/-- C5: for two books with disjoint character-key sets the shared
computation returns the empty sequence; for two books with identical
character sets and identical per-character frequencies (the records'
other fields and their order are unconstrained; key uniqueness is the
dict invariant) it returns every character with its frequency
doubled, sorted by summed frequency per the caller's reversal
flag. -/
theorem shared_hanzi_spec (b1 b2 : Book) (fr : Bool) :
    ((∀ c, c ∈ bookKeys b1 → c ∉ bookKeys b2) →
      export_shared_hanzi [b1, b2] fr = [])
    ∧ ((bookKeys b1).Nodup →
        (∀ c ∈ bookKeys b1, c ∈ bookKeys b2) →
        (∀ c ∈ bookKeys b2, c ∈ bookKeys b1) →
        (∀ c ∈ bookKeys b1, freqOf b2 c = freqOf b1 c) →
        (export_shared_hanzi [b1, b2] fr).Perm
          (b1.hanzi.map (fun hz => (hz.hanzi, 2 * hz.frequency)))
        ∧ (export_shared_hanzi [b1, b2] fr).Pairwise
            (fun x y => if fr then y.2 ≤ x.2 else x.2 ≤ y.2)) := by
  constructor
  · intro hdisj
    unfold export_shared_hanzi
    have hkeys : sharedHanziKeys [b1, b2] = [] := by
      unfold sharedHanziKeys
      rw [List.filter_eq_nil_iff]
      intro c hc
      have hnc := hdisj c hc
      simp only [List.all_cons, List.all_nil, Bool.and_true]
      simpa using hnc
    rw [hkeys]
    simp
  · intro hnd h12 h21 hfreq
    have hkeys : sharedHanziKeys [b1, b2] = bookKeys b1 := by
      unfold sharedHanziKeys
      apply List.filter_eq_self.mpr
      intro c hc
      simp only [List.all_cons, List.all_nil, Bool.and_true]
      simpa using h12 c hc
    unfold export_shared_hanzi
    rw [hkeys]
    have hmap : (bookKeys b1).map
        (fun c => (c, ([b1, b2].map (fun b => freqOf b c)).sum)) =
        b1.hanzi.map (fun hz => (hz.hanzi, 2 * hz.frequency)) := by
      unfold bookKeys
      rw [List.map_map]
      apply List.map_congr_left
      intro hz hmem
      simp only [Function.comp_apply, List.map_cons, List.map_nil, List.sum_cons,
        List.sum_nil, add_zero]
      have h1 : freqOf b1 hz.hanzi = hz.frequency := by
        unfold freqOf
        rw [find_key_of_nodup b1.hanzi hz hnd hmem]
      have h2 : freqOf b2 hz.hanzi = hz.frequency := by
        rw [hfreq hz.hanzi (List.mem_map_of_mem _ hmem)]
        exact h1
      rw [h1, h2]
      simp [Nat.two_mul]
    rw [hmap]
    constructor
    · exact List.perm_insertionSort _ _
    · haveI : IsTotal (Char × ℕ) (fun x y => if fr then y.2 ≤ x.2 else x.2 ≤ y.2) := by
        constructor
        intro a b
        cases fr <;> simp <;> omega
      haveI : IsTrans (Char × ℕ) (fun x y => if fr then y.2 ≤ x.2 else x.2 ≤ y.2) := by
        constructor
        intro a b c hab hbc
        cases fr <;> simp_all <;> omega
      exact List.sorted_insertionSort _ _

theorem shared_hanzi_spec_witness :
    ((∀ c, c ∈ bookKeys (mkSmallBook '你' 1) → c ∉ bookKeys (mkSmallBook '好' 2))
      ∧ export_shared_hanzi [mkSmallBook '你' 1, mkSmallBook '好' 2] true = [])
    ∧ ((bookKeys (mkSmallBook '你' 1)).Nodup
      ∧ (∀ c ∈ bookKeys (mkSmallBook '你' 1), c ∈ bookKeys (mkSmallBookVariant '你' 1))
      ∧ (∀ c ∈ bookKeys (mkSmallBookVariant '你' 1), c ∈ bookKeys (mkSmallBook '你' 1))
      ∧ (∀ c ∈ bookKeys (mkSmallBook '你' 1),
          freqOf (mkSmallBookVariant '你' 1) c = freqOf (mkSmallBook '你' 1) c)
      ∧ ((export_shared_hanzi [mkSmallBook '你' 1, mkSmallBookVariant '你' 1] true).Perm
          ((mkSmallBook '你' 1).hanzi.map (fun hz => (hz.hanzi, 2 * hz.frequency)))
        ∧ (export_shared_hanzi [mkSmallBook '你' 1, mkSmallBookVariant '你' 1] true).Pairwise
            (fun x y => if true then y.2 ≤ x.2 else x.2 ≤ y.2))) :=
  ⟨⟨by decide,
    (shared_hanzi_spec (mkSmallBook '你' 1) (mkSmallBook '好' 2) true).1 (by decide)⟩,
   ⟨by decide, by decide, by decide, by decide,
    (shared_hanzi_spec (mkSmallBook '你' 1) (mkSmallBookVariant '你' 1) true).2
      (by decide) (by decide) (by decide) (by decide)⟩⟩
